import Mathlib

/-! Shallow embedding of the symmetric-crypto module of the st2 repository
(src/st2common/st2common/util/crypto.py).

The module is Python 2 code: a Python str is a byte string, so every
string and byte value below is modelled as a `List Nat` of byte values.
Each definition is translated from the named source function.  The AES
block transform and the HMAC-SHA1 digest are supplied by the external
`cryptography` library, not by this repository; they enter the embedding
as function parameters, constrained only by the contracts that library
documents (see `GoodBlockEnc`, `InverseBlock`, `GoodHmac` below). -/

/-- Failure modes of the embedded functions.  The constructors follow the
taxonomy of the specification; the doc comment of each embedded function
records which concrete Python exception is mapped to which constructor. -/
inductive CryptoError where
  /-- Malformed input: hex decoding failures (Python 2 `TypeError` from
  `binascii.unhexlify`), base64 decoding failures (the `ValueError` raised
  by `Base64WSDecode`), the bare `Exception` raised for a too-short
  envelope, and the `ValueError` the cipher backend raises when the data
  fed to a CBC decryptor is not a multiple of the block size. -/
  | formatError
  /-- `cryptography.exceptions.InvalidSignature` from `hmac.verify`. -/
  | authenticationError
  /-- Present in the taxonomy of the specification (unsupported mode or
  key size).  The source never raises it; the constructor exists so that
  its absence is expressible in theorems. -/
  | configurationError
  /-- Python `IndexError`, raised by `data[-1]` on an empty string. -/
  | indexError
  deriving DecidableEq

/-- Decidable equality of results, so that concrete instances can be
settled by `decide`. -/
instance {ε α : Type} [DecidableEq ε] [DecidableEq α] : DecidableEq (Except ε α)
  | .ok a, .ok b =>
      if h : a = b then .isTrue (by rw [h]) else .isFalse fun hc => h (Except.ok.inj hc)
  | .error a, .error b =>
      if h : a = b then .isTrue (by rw [h]) else .isFalse fun hc => h (Except.error.inj hc)
  | .ok _, .error _ => .isFalse fun hc => Except.noConfusion hc
  | .error _, .ok _ => .isFalse fun hc => Except.noConfusion hc

/-- ASCII codes of a string literal (used for Python string constants). -/
def strCodes (s : String) : List Nat := s.toList.map Char.toNat

/-- Python 2 `str.upper` on one byte: map 97..122 to 65..90. -/
def upChar (c : Nat) : Nat := if 97 ≤ c ∧ c ≤ 122 then c - 32 else c

/-- Python 2 `str.upper` on a byte string. -/
def strUpper (s : List Nat) : List Nat := s.map upChar

/-! ## Base64 web-safe codec (`Base64WSEncode` / `Base64WSDecode`) -/

/-- Character of the URL-safe base64 alphabet for a 6-bit value
(`base64.urlsafe_b64encode` alphabet: `A`-`Z`, `a`-`z`, `0`-`9`, `-`, `_`). -/
def b64char (i : Nat) : Nat :=
  if i < 26 then 65 + i
  else if i < 52 then 71 + i
  else if i < 62 then i - 4
  else if i = 62 then 45
  else 95

/-- `Base64WSEncode(s)`: `base64.urlsafe_b64encode(str(s)).replace("=", "")`.
The padding characters are produced and immediately stripped by the
source, so the embedding emits the unpadded form directly: each 3-byte
group yields 4 characters, a trailing 1- or 2-byte group yields 2 or 3
characters and no `=`. -/
def Base64WSEncode : List Nat → List Nat
  | [] => []
  | [b0] => [b64char (b0 / 4), b64char (b0 % 4 * 16)]
  | [b0, b1] => [b64char (b0 / 4), b64char (b0 % 4 * 16 + b1 / 16), b64char (b1 % 16 * 4)]
  | b0 :: b1 :: b2 :: rest =>
      b64char (b0 / 4) :: b64char (b0 % 4 * 16 + b1 / 16) ::
        b64char (b1 % 16 * 4 + b2 / 64) :: b64char (b2 % 64) :: Base64WSEncode rest

/-- Value of a standard-alphabet base64 character, as in the CPython 2
`binascii` table `table_a2b_base64` (the pad character 61 is handled
separately by the decoder loop). -/
def b64val (c : Nat) : Option Nat :=
  if 65 ≤ c ∧ c ≤ 90 then some (c - 65)
  else if 97 ≤ c ∧ c ≤ 122 then some (c - 71)
  else if 48 ≤ c ∧ c ≤ 57 then some (c + 4)
  else if c = 43 then some 62
  else if c = 47 then some 63
  else none

/-- The character translation performed by `base64.urlsafe_b64decode`:
`-` becomes `+` and `_` becomes `/`. -/
def urlsafeTranslate (c : Nat) : Nat :=
  if c = 45 then 43 else if c = 95 then 47 else c

/-- `binascii_find_valid` of CPython 2 `binascii.c`: the first character
that is either in the base64 table or the pad character `=` (61). -/
def findValid : List Nat → Option Nat
  | [] => none
  | c :: rest => if (b64val c).isSome ∨ c = 61 then some c else findValid rest

/-- The scanning loop of CPython 2 `binascii.a2b_base64`, the primitive
under `base64.b64decode`.  State: `quad_pos` (position in the current
4-character group), `leftchar` (pending bits), `leftbits` (number of
pending bits).  Characters outside the alphabet are skipped, not
rejected.  A pad character is skipped when `quad_pos < 2`, or when
`quad_pos = 2` and the next valid character is not another pad;
otherwise it terminates the scan successfully.  At the end of input,
pending bits mean `Incorrect padding` (a `binascii.Error`, surfaced by
`base64.b64decode` as `TypeError`, mapped here to `formatError`). -/
def a2b_base64Aux : Nat → Nat → Nat → List Nat → Except CryptoError (List Nat)
  | _, _, leftbits, [] => if leftbits = 0 then .ok [] else .error .formatError
  | quad_pos, leftchar, leftbits, c :: rest =>
      if c = 61 then
        if quad_pos < 2 then a2b_base64Aux quad_pos leftchar leftbits rest
        else if quad_pos = 2 ∧ findValid rest ≠ some 61 then
          a2b_base64Aux quad_pos leftchar leftbits rest
        else .ok []
      else
        match b64val c with
        | none => a2b_base64Aux quad_pos leftchar leftbits rest
        | some v =>
            let lc := leftchar * 64 + v
            let lb := leftbits + 6
            if 8 ≤ lb then
              Except.map (fun bs => lc / 2 ^ (lb - 8) % 256 :: bs)
                (a2b_base64Aux ((quad_pos + 1) % 4) (lc % 2 ^ (lb - 8)) (lb - 8) rest)
            else a2b_base64Aux ((quad_pos + 1) % 4) lc lb rest

/-- `binascii.a2b_base64` on a full input. -/
def a2b_base64 (s : List Nat) : Except CryptoError (List Nat) := a2b_base64Aux 0 0 0 s

/-- `Base64WSDecode(s)`: drop line breaks and spaces, dispatch on the
remaining length mod 4 (1 is an immediate `ValueError`, 2 appends `==`,
3 appends `=`), then `base64.urlsafe_b64decode`; a decoding failure is
re-raised as `ValueError`.  Both `ValueError` sites map to
`formatError`. -/
def Base64WSDecode (s : List Nat) : Except CryptoError (List Nat) :=
  let t := s.filter fun c => !(c == 10) && !(c == 13) && !(c == 32)
  let d := t.length % 4
  if d = 1 then .error .formatError
  else
    let padded := if d = 2 then t ++ [61, 61] else if d = 3 then t ++ [61] else t
    match a2b_base64 (padded.map urlsafeTranslate) with
    | .ok bs => .ok bs
    | .error _ => .error .formatError

/-! ## Hex codec (`binascii.hexlify` / `binascii.unhexlify`) -/

/-- Lowercase hex digit of a 4-bit value, as produced by `binascii.hexlify`. -/
def hexDigit (n : Nat) : Nat := if n < 10 then 48 + n else 87 + n

/-- `binascii.hexlify`: two lowercase hex characters per byte. -/
def hexlify : List Nat → List Nat
  | [] => []
  | b :: rest => hexDigit (b / 16) :: hexDigit (b % 16) :: hexlify rest

/-- Value of a hex digit character (`0`-`9`, `a`-`f`, `A`-`F`). -/
def hexDigitVal (c : Nat) : Option Nat :=
  if 48 ≤ c ∧ c ≤ 57 then some (c - 48)
  else if 97 ≤ c ∧ c ≤ 102 then some (c - 87)
  else if 65 ≤ c ∧ c ≤ 70 then some (c - 55)
  else none

/-- Pair loop of `binascii.unhexlify`; a non-hex character raises the
Python 2 `TypeError` (non-hexadecimal digit found), mapped to
`formatError`. -/
def unhexAux : List Nat → Except CryptoError (List Nat)
  | [] => .ok []
  | [_] => .error .formatError
  | c1 :: c2 :: rest =>
      match hexDigitVal c1, hexDigitVal c2 with
      | some hi, some lo => Except.map (fun bs => (16 * hi + lo) :: bs) (unhexAux rest)
      | _, _ => .error .formatError

/-- `binascii.unhexlify`: odd length raises the Python 2 `TypeError`
(odd-length string), mapped to `formatError`. -/
def unhexlify (s : List Nat) : Except CryptoError (List Nat) :=
  if s.length % 2 = 1 then .error .formatError else unhexAux s

/-! ## PKCS5 padding codec (`pkcs5_pad` / `pkcs5_unpad`) -/

/-- `pkcs5_pad(data)`: append `p = 16 - len(data) % 16` bytes of value `p`. -/
def pkcs5_pad (data : List Nat) : List Nat :=
  let p := 16 - data.length % 16
  data ++ List.replicate p p

/-- `pkcs5_unpad(data)`: `p = ord(data[-1]); return data[:-p]`.
On an empty string, `data[-1]` raises `IndexError`.  Python slicing makes
`data[:-p]` the empty string both when `p = 0` (since `-0 = 0`) and when
`p` is at least `len(data)`; no exception is raised in either case. -/
def pkcs5_unpad (data : List Nat) : Except CryptoError (List Nat) :=
  match data.getLast? with
  | none => .error .indexError
  | some p => .ok (if p = 0 then [] else data.take (data.length - p))

/-! ## Key model (`AESKey`, `read_crypto_key`, `AESKey.generate`) -/

/-- The `AESKey` object: the five constructor attributes plus the two
byte strings the constructor derives by base64-decoding the key
strings. -/
structure AESKey where
  aes_key_string : List Nat
  hmac_key_string : List Nat
  hmac_key_size : Nat
  mode : List Nat
  size : Nat
  hmac_key_bytes : List Nat
  aes_key_bytes : List Nat
  deriving DecidableEq

/-- `AESKey.__init__`: store the attributes, uppercase `mode`, and derive
`hmac_key_bytes` and then `aes_key_bytes` with `Base64WSDecode` (whose
`ValueError` propagates, in that order).  No validation of `mode` or of
any size is performed. -/
def AESKey.init (aes_key_string hmac_key_string : List Nat) (hmac_key_size : Nat)
    (mode : List Nat) (size : Nat) : Except CryptoError AESKey :=
  (Base64WSDecode hmac_key_string).bind fun hmac_key_bytes =>
    (Base64WSDecode aes_key_string).bind fun aes_key_bytes =>
      .ok ⟨aes_key_string, hmac_key_string, hmac_key_size, strUpper mode, size,
        hmac_key_bytes, aes_key_bytes⟩

/-- `AESKey.generate(key_size)`: draw `key_size / 8` (Python 2 floor
division) bytes from `os.urandom` for the AES key and as many again for
the HMAC key, base64-encode both, and build the key with mode `CBC`.
The entropy source `os.urandom` is modelled by the two streams
`aesRandom` and `hmacRandom`: the call `os.urandom(n)` returns the first
`n` bytes of the stream.  No validation of `key_size` is performed. -/
def AESKey.generate (key_size : Nat) (aesRandom hmacRandom : Nat → Nat) :
    Except CryptoError AESKey :=
  let aes_key_bytes := (List.range (key_size / 8)).map aesRandom
  let aes_key_string := Base64WSEncode aes_key_bytes
  let hmac_key_bytes := (List.range (key_size / 8)).map hmacRandom
  let hmac_key_string := Base64WSEncode hmac_key_bytes
  AESKey.init aes_key_string hmac_key_string key_size (strCodes "CBC") key_size

/-- The parsed content of a key file in Keyczar JSON format, i.e. the
result of `json.loads` inside `read_crypto_key`. -/
structure KeyRecord where
  aesKeyString : List Nat
  hmacKeyString : List Nat
  hmacKeySize : Nat
  mode : List Nat
  size : Nat
  deriving DecidableEq

/-- `read_crypto_key(key_path)` after the file read and `json.loads`
(file input and JSON parsing are the external collaborators of the
loader and are not needed by any claim): build the `AESKey` from the
record fields, uppercasing `mode` once more before the constructor. -/
def read_crypto_key (content : KeyRecord) : Except CryptoError AESKey :=
  AESKey.init content.aesKeyString content.hmacKeyString content.hmacKeySize
    (strUpper content.mode) content.size

/-! ## Cipher engine (AES-CBC via the `cryptography` library)

The source builds `Cipher(algorithms.AES(key), modes.CBC(iv))` and runs
`update` plus `finalize`.  The AES block transform itself is external
library code; the CBC chaining below is its documented block-mode
semantics, over an abstract block transform. -/

/-- Keyczar framing constants of the source module. -/
def KEYCZAR_HEADER_SIZE : Nat := 5

/-- AES block size in bytes. -/
def KEYCZAR_AES_BLOCK_SIZE : Nat := 16

/-- `sha1().digest_size`. -/
def KEYCZAR_HLEN : Nat := 20

/-- Bytewise xor of two equal-length byte strings. -/
def xorBytes (a b : List Nat) : List Nat := List.zipWith (fun x y => x ^^^ y) a b

/-- CBC encryption chaining, fuel-indexed so that it is structurally
recursive (the fuel is the data length, an upper bound on the number of
blocks).  Each 16-byte block is xored with the previous ciphertext block
(initially the IV) and passed through the block transform.  The
encryptor of the source is only ever fed `pkcs5_pad` output, always a
positive multiple of 16 bytes. -/
def cbcEncryptAux (encBlock : List Nat → List Nat) :
    Nat → List Nat → List Nat → List Nat
  | 0, _, _ => []
  | fuel + 1, prev, data =>
      if data.isEmpty then []
      else
        let c := encBlock (xorBytes prev (data.take 16))
        c ++ cbcEncryptAux encBlock fuel c (data.drop 16)

/-- `encryptor.update(data) + encryptor.finalize()` for AES-CBC. -/
def cbcEncryptBlocks (encBlock : List Nat → List Nat) (iv data : List Nat) : List Nat :=
  cbcEncryptAux encBlock data.length iv data

/-- CBC decryption chaining, fuel-indexed like `cbcEncryptAux`.  An
incomplete final block makes `decryptor.finalize()` raise `ValueError`
(data not a multiple of the block length), mapped to `formatError`. -/
def cbcDecryptAux (decBlock : List Nat → List Nat) :
    Nat → List Nat → List Nat → Except CryptoError (List Nat)
  | 0, _, data => if data.isEmpty then .ok [] else .error .formatError
  | fuel + 1, prev, data =>
      if data.isEmpty then .ok []
      else if data.length < 16 then .error .formatError
      else
        Except.map (fun rest => xorBytes prev (decBlock (data.take 16)) ++ rest)
          (cbcDecryptAux decBlock fuel (data.take 16) (data.drop 16))

/-- `decryptor.update(data) + decryptor.finalize()` for AES-CBC. -/
def cbcDecryptBlocks (decBlock : List Nat → List Nat) (iv data : List Nat) :
    Except CryptoError (List Nat) :=
  cbcDecryptAux decBlock data.length iv data

/-! ## Envelope codec (`cryptography_symmetric_encrypt` / `_decrypt`) -/

/-- `cryptography_symmetric_encrypt(encrypt_key, plaintext)`.
`aesEncryptBlock key block` is the AES block encryption of the external
library for the given raw key; `hmacSha1 key msg` is its HMAC-SHA1
digest.  `iv_bytes` models the 16 fresh bytes the source draws from
`os.urandom`.  The header is the Python string constant 00000: five ASCII
`0` characters, i.e. five bytes of value 48. -/
def cryptography_symmetric_encrypt
    (aesEncryptBlock hmacSha1 : List Nat → List Nat → List Nat)
    (encrypt_key : AESKey) (iv_bytes plaintext : List Nat) : List Nat :=
  let data := pkcs5_pad plaintext
  let header := strCodes "00000"
  let ciphertext_bytes := cbcEncryptBlocks (aesEncryptBlock encrypt_key.aes_key_bytes) iv_bytes data
  let msg_bytes := header ++ iv_bytes ++ ciphertext_bytes
  let sig_bytes := hmacSha1 encrypt_key.hmac_key_bytes msg_bytes
  strUpper (hexlify (msg_bytes ++ sig_bytes))

/-- `cryptography_symmetric_decrypt(decrypt_key, ciphertext)`:
hex-decode, drop the 5-byte header, reject envelopes with fewer than
16 + 20 remaining bytes (`raise Exception` in the source, the
`formatError` of the taxonomy), split IV / ciphertext / signature,
verify the HMAC-SHA1 of everything but the trailing 20 bytes
(`hmac.verify`, constant-time, `InvalidSignature` on mismatch), and only
then CBC-decrypt and unpad. -/
def cryptography_symmetric_decrypt
    (aesDecryptBlock hmacSha1 : List Nat → List Nat → List Nat)
    (decrypt_key : AESKey) (ciphertext : List Nat) : Except CryptoError (List Nat) :=
  (unhexlify ciphertext).bind fun raw =>
    let data_bytes := raw.drop KEYCZAR_HEADER_SIZE
    if data_bytes.length < KEYCZAR_AES_BLOCK_SIZE + KEYCZAR_HLEN then .error .formatError
    else
      let iv_bytes := data_bytes.take KEYCZAR_AES_BLOCK_SIZE
      let ciphertext_bytes := (data_bytes.drop KEYCZAR_AES_BLOCK_SIZE).take
        (data_bytes.length - (KEYCZAR_AES_BLOCK_SIZE + KEYCZAR_HLEN))
      let signature_bytes := data_bytes.drop (data_bytes.length - KEYCZAR_HLEN)
      if hmacSha1 decrypt_key.hmac_key_bytes (raw.take (raw.length - KEYCZAR_HLEN)) ≠ signature_bytes
      then .error .authenticationError
      else
        (cbcDecryptBlocks (aesDecryptBlock decrypt_key.aes_key_bytes) iv_bytes
          ciphertext_bytes).bind pkcs5_unpad

/-! ## Contracts of the external primitives -/

/-- Contract of an AES block transform for a fixed key: on a 16-byte
block it returns a 16-byte block of bytes. -/
def GoodBlockEnc (f : List Nat → List Nat) : Prop :=
  ∀ b, b.length = 16 → (∀ x ∈ b, x < 256) → (f b).length = 16 ∧ ∀ x ∈ f b, x < 256

/-- Contract tying AES block decryption to encryption for one key. -/
def InverseBlock (e d : List Nat → List Nat) : Prop :=
  ∀ b, b.length = 16 → (∀ x ∈ b, x < 256) → d (e b) = b

/-- Contract of HMAC-SHA1: every digest is 20 bytes. -/
def GoodHmac (h : List Nat → List Nat → List Nat) : Prop :=
  ∀ k m, (h k m).length = 20 ∧ ∀ x ∈ h k m, x < 256

/-! ## List helper lemmas -/

theorem take_append_length {α : Type} (l₁ l₂ : List α) : (l₁ ++ l₂).take l₁.length = l₁ := by
  induction l₁ with
  | nil => rfl
  | cons a t ih => simp [ih]

theorem drop_append_length {α : Type} (l₁ l₂ : List α) : (l₁ ++ l₂).drop l₁.length = l₂ := by
  induction l₁ with
  | nil => rfl
  | cons a t ih => simp [ih]

theorem xorBytes_length (a b : List Nat) : (xorBytes a b).length = min a.length b.length := by
  simp [xorBytes]

theorem xorBytes_lt : ∀ a b : List Nat, (∀ x ∈ a, x < 256) → (∀ x ∈ b, x < 256) →
    ∀ x ∈ xorBytes a b, x < 256 := by
  intro a
  induction a with
  | nil => intro b _ _; simp [xorBytes]
  | cons x t ih =>
      intro b ha hb
      cases b with
      | nil => simp [xorBytes]
      | cons y u =>
          intro z hz
          simp only [xorBytes, List.zipWith_cons_cons, List.mem_cons] at hz
          rcases hz with h | h
          · subst h
            have hx : x < 2 ^ 8 := ha x (by simp)
            have hy : y < 2 ^ 8 := hb y (by simp)
            exact Nat.bitwise_lt hx hy
          · exact ih u (fun w hw => ha w (List.mem_cons_of_mem _ hw))
              (fun w hw => hb w (List.mem_cons_of_mem _ hw)) z h

theorem xorBytes_cancel (a b : List Nat) (h : a.length = b.length) :
    xorBytes a (xorBytes a b) = b := by
  induction a generalizing b with
  | nil =>
      cases b with
      | nil => rfl
      | cons y u => simp at h
  | cons x t ih =>
      cases b with
      | nil => simp at h
      | cons y u =>
          simp only [xorBytes, List.zipWith_cons_cons, List.cons.injEq]
          exact ⟨Nat.xor_cancel_left x y, ih u (by simpa using h)⟩

/-! ## Hex codec lemmas -/

theorem hexlify_length (bs : List Nat) : (hexlify bs).length = 2 * bs.length := by
  induction bs with
  | nil => rfl
  | cons b rest ih => simp [hexlify, ih]; omega

theorem hexDigitVal_upChar_hexDigit : ∀ x, x < 16 → hexDigitVal (upChar (hexDigit x)) = some x := by
  decide

theorem unhexAux_upper_hexlify (bs : List Nat) (h : ∀ b ∈ bs, b < 256) :
    unhexAux (strUpper (hexlify bs)) = .ok bs := by
  induction bs with
  | nil => rfl
  | cons b rest ih =>
      have hb : b < 256 := h b (by simp)
      have h1 : hexDigitVal (upChar (hexDigit (b / 16))) = some (b / 16) :=
        hexDigitVal_upChar_hexDigit _ (by omega)
      have h2 : hexDigitVal (upChar (hexDigit (b % 16))) = some (b % 16) :=
        hexDigitVal_upChar_hexDigit _ (by omega)
      have hrest : unhexAux (strUpper (hexlify rest)) = .ok rest :=
        ih (fun w hw => h w (List.mem_cons_of_mem _ hw))
      simp only [hexlify, strUpper, List.map_cons, unhexAux, h1, h2]
      rw [show strUpper (hexlify rest) = List.map upChar (hexlify rest) from rfl] at hrest
      rw [hrest]
      simp only [Except.map]
      have hb' : 16 * (b / 16) + b % 16 = b := by omega
      rw [hb']

theorem unhexlify_upper_hexlify (bs : List Nat) (h : ∀ b ∈ bs, b < 256) :
    unhexlify (strUpper (hexlify bs)) = .ok bs := by
  have hlen : (strUpper (hexlify bs)).length = 2 * bs.length := by
    simp [strUpper, hexlify_length]
  rw [unhexlify, if_neg (by omega), unhexAux_upper_hexlify bs h]

theorem upChar_hexDigit_range : ∀ x, x < 16 →
    (48 ≤ upChar (hexDigit x) ∧ upChar (hexDigit x) ≤ 57) ∨
      (65 ≤ upChar (hexDigit x) ∧ upChar (hexDigit x) ≤ 70) := by
  decide

theorem mem_upper_hexlify : ∀ bs : List Nat, (∀ b ∈ bs, b < 256) →
    ∀ c ∈ strUpper (hexlify bs), (48 ≤ c ∧ c ≤ 57) ∨ (65 ≤ c ∧ c ≤ 70) := by
  intro bs
  induction bs with
  | nil => intro _; simp [strUpper, hexlify]
  | cons b rest ih =>
      intro hv c hc
      have hb : b < 256 := hv b (by simp)
      simp only [hexlify, strUpper, List.map_cons, List.mem_cons] at hc
      rcases hc with h | h | h
      · subst h; exact upChar_hexDigit_range _ (by omega)
      · subst h; exact upChar_hexDigit_range _ (by omega)
      · exact ih (fun w hw => hv w (List.mem_cons_of_mem _ hw)) c h

/-! ## Padding codec lemmas -/

theorem pkcs5_pad_eq (data : List Nat) :
    pkcs5_pad data =
      data ++ List.replicate (16 - data.length % 16) (16 - data.length % 16) := rfl

theorem pkcs5_pad_length (data : List Nat) :
    (pkcs5_pad data).length = data.length + (16 - data.length % 16) := by
  simp [pkcs5_pad]

theorem pkcs5_pad_length_mod (data : List Nat) : (pkcs5_pad data).length % 16 = 0 := by
  rw [pkcs5_pad_length]
  omega

theorem pkcs5_pad_length_pos (data : List Nat) : 16 ≤ (pkcs5_pad data).length := by
  have := pkcs5_pad_length_mod data
  rw [pkcs5_pad_length] at *
  omega

theorem pkcs5_pad_bytes (data : List Nat) (h : ∀ x ∈ data, x < 256) :
    ∀ x ∈ pkcs5_pad data, x < 256 := by
  intro x hx
  rw [pkcs5_pad_eq] at hx
  rcases List.mem_append.mp hx with hm | hm
  · exact h x hm
  · have := List.eq_of_mem_replicate hm
    omega

theorem pkcs5_unpad_pad (data : List Nat) : pkcs5_unpad (pkcs5_pad data) = .ok data := by
  have hp : 1 ≤ 16 - data.length % 16 := by omega
  set p := 16 - data.length % 16 with hpdef
  have hrep : List.replicate p p = List.replicate (p - 1) p ++ [p] := by
    have h2 := List.replicate_succ' (p - 1) p
    rwa [show p - 1 + 1 = p by omega] at h2
  have hlast : (pkcs5_pad data).getLast? = some p := by
    rw [pkcs5_pad_eq, ← hpdef, hrep, ← List.append_assoc]
    exact List.getLast?_concat _
  have hlen : (pkcs5_pad data).length - p = data.length := by
    rw [pkcs5_pad_length]
    omega
  simp only [pkcs5_unpad, hlast]
  rw [if_neg (by omega : ¬p = 0), hlen, pkcs5_pad_eq, ← hpdef, take_append_length]

/-! ## CBC chaining lemmas -/

theorem cbcEncryptAux_nil (encB : List Nat → List Nat) (fuel : Nat) (prev : List Nat) :
    cbcEncryptAux encB fuel prev [] = [] := by
  cases fuel <;> rfl

theorem cbcDecryptAux_nil (decB : List Nat → List Nat) (fuel : Nat) (prev : List Nat) :
    cbcDecryptAux decB fuel prev [] = .ok [] := by
  cases fuel <;> rfl

theorem cbcEncryptAux_spec (encB : List Nat → List Nat) (hE : GoodBlockEnc encB) :
    ∀ k fuel prev data, data.length = 16 * k → data.length ≤ fuel →
      prev.length = 16 → (∀ x ∈ prev, x < 256) → (∀ x ∈ data, x < 256) →
      (cbcEncryptAux encB fuel prev data).length = data.length ∧
        ∀ x ∈ cbcEncryptAux encB fuel prev data, x < 256 := by
  intro k
  induction k with
  | zero =>
      intro fuel prev data hlen _ _ _ _
      have hnil : data = [] := List.eq_nil_of_length_eq_zero (by omega)
      subst hnil
      simp [cbcEncryptAux_nil]
  | succ k ih =>
      intro fuel prev data hlen hfuel hprev hprevv hdatav
      have hdlen : 16 ≤ data.length := by omega
      have hdne : data ≠ [] := by
        intro h
        subst h
        simp at hdlen
      obtain ⟨f, rfl⟩ : ∃ f, fuel = f + 1 := ⟨fuel - 1, by omega⟩
      have htake : (data.take 16).length = 16 := by
        rw [List.length_take]
        omega
      have htakev : ∀ x ∈ data.take 16, x < 256 := fun x hx => hdatav x (List.mem_of_mem_take hx)
      have hxlen : (xorBytes prev (data.take 16)).length = 16 := by
        rw [xorBytes_length, hprev, htake]
        omega
      have hxv : ∀ x ∈ xorBytes prev (data.take 16), x < 256 := xorBytes_lt _ _ hprevv htakev
      obtain ⟨hclen, hcv⟩ := hE (xorBytes prev (data.take 16)) hxlen hxv
      have hdrop : (data.drop 16).length = 16 * k := by
        rw [List.length_drop]
        omega
      have hdropv : ∀ x ∈ data.drop 16, x < 256 := fun x hx => hdatav x (List.mem_of_mem_drop hx)
      obtain ⟨ihlen, ihv⟩ := ih f _ (data.drop 16) hdrop (by omega) hclen hcv hdropv
      rw [cbcEncryptAux, if_neg (by simp [List.isEmpty_iff, hdne])]
      constructor
      · rw [List.length_append, hclen, ihlen, hdrop]
        omega
      · intro x hx
        rcases List.mem_append.mp hx with h | h
        · exact hcv x h
        · exact ihv x h

theorem cbc_roundtrip (encB decB : List Nat → List Nat)
    (hE : GoodBlockEnc encB) (hI : InverseBlock encB decB) :
    ∀ k fuelE fuelD prev data, data.length = 16 * k →
      data.length ≤ fuelE → data.length ≤ fuelD →
      prev.length = 16 → (∀ x ∈ prev, x < 256) → (∀ x ∈ data, x < 256) →
      cbcDecryptAux decB fuelD prev (cbcEncryptAux encB fuelE prev data) = .ok data := by
  intro k
  induction k with
  | zero =>
      intro fuelE fuelD prev data hlen _ _ _ _ _
      have hnil : data = [] := List.eq_nil_of_length_eq_zero (by omega)
      subst hnil
      rw [cbcEncryptAux_nil, cbcDecryptAux_nil]
  | succ k ih =>
      intro fuelE fuelD prev data hlen hfE hfD hprev hprevv hdatav
      have hdlen : 16 ≤ data.length := by omega
      have hdne : data ≠ [] := by
        intro h
        subst h
        simp at hdlen
      obtain ⟨fE, rfl⟩ : ∃ f, fuelE = f + 1 := ⟨fuelE - 1, by omega⟩
      obtain ⟨fD, rfl⟩ : ∃ f, fuelD = f + 1 := ⟨fuelD - 1, by omega⟩
      have htake : (data.take 16).length = 16 := by
        rw [List.length_take]
        omega
      have htakev : ∀ x ∈ data.take 16, x < 256 := fun x hx => hdatav x (List.mem_of_mem_take hx)
      have hxlen : (xorBytes prev (data.take 16)).length = 16 := by
        rw [xorBytes_length, hprev, htake]
        omega
      have hxv : ∀ x ∈ xorBytes prev (data.take 16), x < 256 := xorBytes_lt _ _ hprevv htakev
      obtain ⟨hclen, hcv⟩ := hE (xorBytes prev (data.take 16)) hxlen hxv
      have hdrop : (data.drop 16).length = 16 * k := by
        rw [List.length_drop]
        omega
      have hdropv : ∀ x ∈ data.drop 16, x < 256 := fun x hx => hdatav x (List.mem_of_mem_drop hx)
      set c := encB (xorBytes prev (data.take 16)) with hc
      obtain ⟨hrlen, _⟩ :=
        cbcEncryptAux_spec encB hE k fE c (data.drop 16) hdrop (by omega) hclen hcv hdropv
      rw [cbcEncryptAux, if_neg (by simp [List.isEmpty_iff, hdne]), ← hc]
      have hctlen : (c ++ cbcEncryptAux encB fE c (data.drop 16)).length = data.length := by
        rw [List.length_append, hclen, hrlen, hdrop]
        omega
      have hctne : (c ++ cbcEncryptAux encB fE c (data.drop 16)) ≠ [] := by
        intro h
        rw [h] at hctlen
        simp at hctlen
        omega
      rw [cbcDecryptAux, if_neg (by simp [List.isEmpty_iff, hctne]),
        if_neg (by rw [hctlen]; omega)]
      have htk : (c ++ cbcEncryptAux encB fE c (data.drop 16)).take 16 = c := by
        rw [show (16 : Nat) = c.length from hclen.symm]
        exact take_append_length _ _
      have hdr : (c ++ cbcEncryptAux encB fE c (data.drop 16)).drop 16 =
          cbcEncryptAux encB fE c (data.drop 16) := by
        rw [show (16 : Nat) = c.length from hclen.symm]
        exact drop_append_length _ _
      rw [htk, hdr, hc, hI (xorBytes prev (data.take 16)) hxlen hxv,
        xorBytes_cancel prev (data.take 16) (by omega), ← hc]
      rw [ih fE fD c (data.drop 16) hdrop (by omega) (by omega) hclen hcv hdropv]
      simp only [Except.map]
      rw [List.take_append_drop]

/-! ## Base64 codec lemmas -/

theorem b64_tr_val : ∀ i, i < 64 → urlsafeTranslate (b64char i) ≠ 61 ∧
    b64val (urlsafeTranslate (b64char i)) = some i := by
  decide

theorem b64char_keep : ∀ i, i < 64 →
    (!(b64char i == 10) && !(b64char i == 13) && !(b64char i == 32)) = true := by
  decide

theorem mem_encode : ∀ bs : List Nat, (∀ x ∈ bs, x < 256) →
    ∀ c ∈ Base64WSEncode bs, ∃ i, i < 64 ∧ c = b64char i
  | [], _ => by simp [Base64WSEncode]
  | [b0], h => by
      have hb0 : b0 < 256 := h b0 (by simp)
      intro c hc
      simp only [Base64WSEncode, List.mem_cons, List.not_mem_nil, or_false] at hc
      rcases hc with hc | hc
      · exact ⟨b0 / 4, by omega, hc⟩
      · exact ⟨b0 % 4 * 16, by omega, hc⟩
  | [b0, b1], h => by
      have hb0 : b0 < 256 := h b0 (by simp)
      have hb1 : b1 < 256 := h b1 (by simp)
      intro c hc
      simp only [Base64WSEncode, List.mem_cons, List.not_mem_nil, or_false] at hc
      rcases hc with hc | hc | hc
      · exact ⟨b0 / 4, by omega, hc⟩
      · exact ⟨b0 % 4 * 16 + b1 / 16, by omega, hc⟩
      · exact ⟨b1 % 16 * 4, by omega, hc⟩
  | b0 :: b1 :: b2 :: rest, h => by
      have hb0 : b0 < 256 := h b0 (by simp)
      have hb1 : b1 < 256 := h b1 (by simp)
      have hb2 : b2 < 256 := h b2 (by simp)
      intro c hc
      simp only [Base64WSEncode, List.mem_cons] at hc
      rcases hc with hc | hc | hc | hc | hc
      · exact ⟨b0 / 4, by omega, hc⟩
      · exact ⟨b0 % 4 * 16 + b1 / 16, by omega, hc⟩
      · exact ⟨b1 % 16 * 4 + b2 / 64, by omega, hc⟩
      · exact ⟨b2 % 64, by omega, hc⟩
      · exact mem_encode rest (fun x hx => h x (by simp [hx])) c hc

theorem filter_encode (bs : List Nat) (h : ∀ x ∈ bs, x < 256) :
    (Base64WSEncode bs).filter (fun c => !(c == 10) && !(c == 13) && !(c == 32)) =
      Base64WSEncode bs := by
  rw [List.filter_eq_self]
  intro c hc
  obtain ⟨i, hi, rfl⟩ := mem_encode bs h c hc
  exact b64char_keep i hi

theorem encode_length : ∀ bs : List Nat,
    (Base64WSEncode bs).length = 4 * (bs.length / 3) +
      (if bs.length % 3 = 0 then 0 else if bs.length % 3 = 1 then 2 else 3)
  | [] => by simp [Base64WSEncode]
  | [b0] => by simp [Base64WSEncode]
  | [b0, b1] => by simp [Base64WSEncode]
  | b0 :: b1 :: b2 :: rest => by
      have ih := encode_length rest
      simp only [Base64WSEncode, List.length_cons, ih]
      have h3 : (rest.length + 1 + 1 + 1) % 3 = rest.length % 3 := by omega
      have h4 : (rest.length + 1 + 1 + 1) / 3 = rest.length / 3 + 1 := by omega
      simp only [h3, h4]
      by_cases h0 : rest.length % 3 = 0
      · simp only [h0, if_true]
        omega
      by_cases h1 : rest.length % 3 = 1
      · simp only [h0, h1, if_false, if_true]
        omega
      · simp only [h0, h1, if_false]
        omega

/-- The padding `Base64WSDecode` appends for each residue of the byte
count modulo 3 (helper for the round-trip proof). -/
def b64PadFor (r : Nat) : List Nat := if r = 1 then [61, 61] else if r = 2 then [61] else []

theorem a2b_s0 (c : Nat) (rest : List Nat) (v : Nat) (hne : c ≠ 61) (hv : b64val c = some v) :
    a2b_base64Aux 0 0 0 (c :: rest) = a2b_base64Aux 1 v 6 rest := by
  simp [a2b_base64Aux, hne, hv]

theorem a2b_s1 (lc c : Nat) (rest : List Nat) (v : Nat) (hne : c ≠ 61)
    (hv : b64val c = some v) :
    a2b_base64Aux 1 lc 6 (c :: rest) =
      Except.map (fun bs => (lc * 64 + v) / 16 % 256 :: bs)
        (a2b_base64Aux 2 ((lc * 64 + v) % 16) 4 rest) := by
  simp [a2b_base64Aux, hne, hv]

theorem a2b_s2 (lc c : Nat) (rest : List Nat) (v : Nat) (hne : c ≠ 61)
    (hv : b64val c = some v) :
    a2b_base64Aux 2 lc 4 (c :: rest) =
      Except.map (fun bs => (lc * 64 + v) / 4 % 256 :: bs)
        (a2b_base64Aux 3 ((lc * 64 + v) % 4) 2 rest) := by
  simp [a2b_base64Aux, hne, hv]

theorem a2b_s3 (lc c : Nat) (rest : List Nat) (v : Nat) (hne : c ≠ 61)
    (hv : b64val c = some v) :
    a2b_base64Aux 3 lc 2 (c :: rest) =
      Except.map (fun bs => (lc * 64 + v) % 256 :: bs) (a2b_base64Aux 0 0 0 rest) := by
  simp [a2b_base64Aux, hne, hv, Nat.mod_one]

theorem a2b_pad_qp2 (lc lb : Nat) (rest : List Nat) (hfv : findValid rest = some 61) :
    a2b_base64Aux 2 lc lb (61 :: rest) = .ok [] := by
  simp [a2b_base64Aux, hfv]

theorem a2b_pad_qp3 (lc lb : Nat) (rest : List Nat) :
    a2b_base64Aux 3 lc lb (61 :: rest) = .ok [] := by
  simp [a2b_base64Aux]

theorem a2b_quad (b0 b1 b2 : Nat) (tail rest : List Nat)
    (h0 : b0 < 256) (h1 : b1 < 256) (h2 : b2 < 256)
    (hrest : a2b_base64Aux 0 0 0 rest = .ok tail) :
    a2b_base64Aux 0 0 0
      (urlsafeTranslate (b64char (b0 / 4)) ::
        urlsafeTranslate (b64char (b0 % 4 * 16 + b1 / 16)) ::
        urlsafeTranslate (b64char (b1 % 16 * 4 + b2 / 64)) ::
        urlsafeTranslate (b64char (b2 % 64)) :: rest) =
      .ok (b0 :: b1 :: b2 :: tail) := by
  obtain ⟨hn0, hv0⟩ := b64_tr_val (b0 / 4) (by omega)
  obtain ⟨hn1, hv1⟩ := b64_tr_val (b0 % 4 * 16 + b1 / 16) (by omega)
  obtain ⟨hn2, hv2⟩ := b64_tr_val (b1 % 16 * 4 + b2 / 64) (by omega)
  obtain ⟨hn3, hv3⟩ := b64_tr_val (b2 % 64) (by omega)
  rw [a2b_s0 _ _ _ hn0 hv0, a2b_s1 _ _ _ _ hn1 hv1, a2b_s2 _ _ _ _ hn2 hv2,
    a2b_s3 _ _ _ _ hn3 hv3, hrest]
  simp only [Except.map, Except.ok.injEq, List.cons.injEq]
  refine ⟨by omega, by omega, by omega, trivial⟩

theorem a2b_tail1 (b0 : Nat) (h0 : b0 < 256) :
    a2b_base64Aux 0 0 0
      (urlsafeTranslate (b64char (b0 / 4)) ::
        urlsafeTranslate (b64char (b0 % 4 * 16)) :: [61, 61]) = .ok [b0] := by
  obtain ⟨hn0, hv0⟩ := b64_tr_val (b0 / 4) (by omega)
  obtain ⟨hn1, hv1⟩ := b64_tr_val (b0 % 4 * 16) (by omega)
  rw [a2b_s0 _ _ _ hn0 hv0, a2b_s1 _ _ _ _ hn1 hv1, a2b_pad_qp2 _ _ _ (by decide)]
  simp only [Except.map, Except.ok.injEq, List.cons.injEq]
  exact ⟨by omega, trivial⟩

theorem a2b_tail2 (b0 b1 : Nat) (h0 : b0 < 256) (h1 : b1 < 256) :
    a2b_base64Aux 0 0 0
      (urlsafeTranslate (b64char (b0 / 4)) ::
        urlsafeTranslate (b64char (b0 % 4 * 16 + b1 / 16)) ::
        urlsafeTranslate (b64char (b1 % 16 * 4)) :: [61]) = .ok [b0, b1] := by
  obtain ⟨hn0, hv0⟩ := b64_tr_val (b0 / 4) (by omega)
  obtain ⟨hn1, hv1⟩ := b64_tr_val (b0 % 4 * 16 + b1 / 16) (by omega)
  obtain ⟨hn2, hv2⟩ := b64_tr_val (b1 % 16 * 4) (by omega)
  rw [a2b_s0 _ _ _ hn0 hv0, a2b_s1 _ _ _ _ hn1 hv1, a2b_s2 _ _ _ _ hn2 hv2, a2b_pad_qp3]
  simp only [Except.map, Except.ok.injEq, List.cons.injEq]
  exact ⟨by omega, by omega, trivial⟩

theorem a2b_encode : ∀ bs : List Nat, (∀ x ∈ bs, x < 256) →
    a2b_base64Aux 0 0 0
      ((Base64WSEncode bs).map urlsafeTranslate ++ b64PadFor (bs.length % 3)) = .ok bs
  | [], _ => by simp [Base64WSEncode, b64PadFor, a2b_base64Aux]
  | [b0], h => by
      have hb0 : b0 < 256 := h b0 (by simp)
      have h1 : ([b0] : List Nat).length % 3 = 1 := by simp
      rw [h1]
      simp only [Base64WSEncode, List.map_cons, List.map_nil, b64PadFor, if_true,
        List.cons_append, List.nil_append]
      exact a2b_tail1 b0 hb0
  | [b0, b1], h => by
      have hb0 : b0 < 256 := h b0 (by simp)
      have hb1 : b1 < 256 := h b1 (by simp)
      have h2 : ([b0, b1] : List Nat).length % 3 = 2 := by simp
      rw [h2]
      have : b64PadFor 2 = [61] := by decide
      rw [this]
      simp only [Base64WSEncode, List.map_cons, List.map_nil, List.cons_append,
        List.nil_append]
      exact a2b_tail2 b0 b1 hb0 hb1
  | b0 :: b1 :: b2 :: rest, h => by
      have hb0 : b0 < 256 := h b0 (by simp)
      have hb1 : b1 < 256 := h b1 (by simp)
      have hb2 : b2 < 256 := h b2 (by simp)
      have ih := a2b_encode rest (fun x hx => h x (by simp [hx]))
      have hmod : (b0 :: b1 :: b2 :: rest).length % 3 = rest.length % 3 := by
        simp only [List.length_cons]
        omega
      rw [hmod]
      simp only [Base64WSEncode, List.map_cons, List.cons_append]
      exact a2b_quad b0 b1 b2 rest _ hb0 hb1 hb2 ih

theorem Base64WSDecode_encode (bs : List Nat) (h : ∀ x ∈ bs, x < 256) :
    Base64WSDecode (Base64WSEncode bs) = .ok bs := by
  have hlen := encode_length bs
  have key : a2b_base64 ((Base64WSEncode bs).map urlsafeTranslate ++ b64PadFor (bs.length % 3)) =
      .ok bs := a2b_encode bs h
  simp only [Base64WSDecode, filter_encode bs h]
  by_cases h0 : bs.length % 3 = 0
  · have hd : (Base64WSEncode bs).length % 4 = 0 := by
      rw [if_pos h0] at hlen
      omega
    rw [if_neg (by omega), if_neg (by omega), if_neg (by omega)]
    have hpz : b64PadFor (bs.length % 3) = [] := by
      rw [h0]
      decide
    rw [hpz, List.append_nil] at key
    rw [key]
  by_cases h1 : bs.length % 3 = 1
  · have hd : (Base64WSEncode bs).length % 4 = 2 := by
      rw [if_neg h0, if_pos h1] at hlen
      omega
    rw [if_neg (by omega), if_pos (by omega)]
    have hpz : b64PadFor (bs.length % 3) = [61, 61] := by
      rw [h1]
      decide
    rw [hpz] at key
    have key2 : a2b_base64 (List.map urlsafeTranslate (Base64WSEncode bs ++ [61, 61])) =
        .ok bs := by
      rw [List.map_append, show List.map urlsafeTranslate [61, 61] = [61, 61] from by decide]
      exact key
    rw [key2]
  · have h2 : bs.length % 3 = 2 := by omega
    have hd : (Base64WSEncode bs).length % 4 = 3 := by
      rw [if_neg h0, if_neg h1] at hlen
      omega
    rw [if_neg (by omega), if_neg (by omega), if_pos (by omega)]
    have hpz : b64PadFor (bs.length % 3) = [61] := by
      rw [h2]
      decide
    rw [hpz] at key
    have key2 : a2b_base64 (List.map urlsafeTranslate (Base64WSEncode bs ++ [61])) =
        .ok bs := by
      rw [List.map_append, show List.map urlsafeTranslate [61] = [61] from by decide]
      exact key
    rw [key2]

/-! ## Envelope lemmas -/

theorem cbcEncryptBlocks_spec (encB : List Nat → List Nat) (hE : GoodBlockEnc encB)
    (iv data : List Nat) (hm : data.length % 16 = 0) (hiv : iv.length = 16)
    (hivv : ∀ x ∈ iv, x < 256) (hdv : ∀ x ∈ data, x < 256) :
    (cbcEncryptBlocks encB iv data).length = data.length ∧
      ∀ x ∈ cbcEncryptBlocks encB iv data, x < 256 := by
  unfold cbcEncryptBlocks
  exact cbcEncryptAux_spec encB hE (data.length / 16) data.length iv data (by omega)
    (le_refl _) hiv hivv hdv

theorem cbcDecryptBlocks_encrypt (encB decB : List Nat → List Nat)
    (hE : GoodBlockEnc encB) (hI : InverseBlock encB decB)
    (iv data : List Nat) (hm : data.length % 16 = 0) (hiv : iv.length = 16)
    (hivv : ∀ x ∈ iv, x < 256) (hdv : ∀ x ∈ data, x < 256) :
    cbcDecryptBlocks decB iv (cbcEncryptBlocks encB iv data) = .ok data := by
  have hlen := (cbcEncryptBlocks_spec encB hE iv data hm hiv hivv hdv).1
  unfold cbcDecryptBlocks cbcEncryptBlocks
  unfold cbcEncryptBlocks at hlen
  rw [hlen]
  exact cbc_roundtrip encB decB hE hI (data.length / 16) data.length data.length iv data
    (by omega) (le_refl _) (le_refl _) hiv hivv hdv

theorem strCodes_00000 : strCodes "00000" = [48, 48, 48, 48, 48] := by decide

theorem encrypt_parts_valid (E H : List Nat → List Nat → List Nat) (key : AESKey)
    (iv P : List Nat)
    (hE : GoodBlockEnc (E key.aes_key_bytes)) (hH : GoodHmac H)
    (hiv : iv.length = 16) (hivv : ∀ x ∈ iv, x < 256) (hP : ∀ x ∈ P, x < 256) :
    ∀ x ∈ (strCodes "00000" ++ iv ++
      cbcEncryptBlocks (E key.aes_key_bytes) iv (pkcs5_pad P)) ++
      H key.hmac_key_bytes (strCodes "00000" ++ iv ++
        cbcEncryptBlocks (E key.aes_key_bytes) iv (pkcs5_pad P)), x < 256 := by
  have hpadv := pkcs5_pad_bytes P hP
  have hmod := pkcs5_pad_length_mod P
  obtain ⟨hctlen, hctv⟩ :=
    cbcEncryptBlocks_spec (E key.aes_key_bytes) hE iv (pkcs5_pad P) hmod hiv hivv hpadv
  intro x hx
  rcases List.mem_append.mp hx with hx | hx
  · rcases List.mem_append.mp hx with hx | hx
    · rcases List.mem_append.mp hx with hx | hx
      · rw [strCodes_00000] at hx
        have hx48 : x = 48 := by simpa using hx
        omega
      · exact hivv x hx
    · exact hctv x hx
  · exact (hH _ _).2 x hx

theorem encrypt_unhex (E H : List Nat → List Nat → List Nat) (key : AESKey) (iv P : List Nat)
    (hE : GoodBlockEnc (E key.aes_key_bytes)) (hH : GoodHmac H)
    (hiv : iv.length = 16) (hivv : ∀ x ∈ iv, x < 256) (hP : ∀ x ∈ P, x < 256) :
    unhexlify (cryptography_symmetric_encrypt E H key iv P) =
      .ok ((strCodes "00000" ++ iv ++ cbcEncryptBlocks (E key.aes_key_bytes) iv (pkcs5_pad P)) ++
        H key.hmac_key_bytes
          (strCodes "00000" ++ iv ++ cbcEncryptBlocks (E key.aes_key_bytes) iv (pkcs5_pad P))) := by
  have hall := encrypt_parts_valid E H key iv P hE hH hiv hivv hP
  simp only [cryptography_symmetric_encrypt]
  exact unhexlify_upper_hexlify _ hall

/-! ## Claim theorems -/

/-- Claim C1: for every key built from matching AES and HMAC key material
and every plaintext, decrypting the result of encryption returns the
plaintext exactly.  `E` and `D` are the AES block transforms of the
external library (assumed mutually inverse, 16-byte-preserving on the
key in use), `H` its HMAC-SHA1 (assumed to emit 20-byte digests), and
`iv` the 16 random bytes the source draws from `os.urandom`. -/
theorem spec_C1_round_trip
    (E D H : List Nat → List Nat → List Nat) (key : AESKey) (iv P : List Nat)
    (hE : GoodBlockEnc (E key.aes_key_bytes))
    (hI : InverseBlock (E key.aes_key_bytes) (D key.aes_key_bytes))
    (hH : GoodHmac H)
    (hiv : iv.length = 16) (hivv : ∀ x ∈ iv, x < 256) (hP : ∀ x ∈ P, x < 256) :
    cryptography_symmetric_decrypt D H key (cryptography_symmetric_encrypt E H key iv P) =
      .ok P := by
  have hpadv := pkcs5_pad_bytes P hP
  have hmod := pkcs5_pad_length_mod P
  have hpos := pkcs5_pad_length_pos P
  have hun := encrypt_unhex E H key iv P hE hH hiv hivv hP
  have hdec0 := cbcDecryptBlocks_encrypt (E key.aes_key_bytes) (D key.aes_key_bytes) hE hI
    iv (pkcs5_pad P) hmod hiv hivv hpadv
  have hlen0 := (cbcEncryptBlocks_spec (E key.aes_key_bytes) hE iv (pkcs5_pad P)
    hmod hiv hivv hpadv).1
  generalize hctdef : cbcEncryptBlocks (E key.aes_key_bytes) iv (pkcs5_pad P) = ct
    at hun hdec0 hlen0
  generalize hsigdef : H key.hmac_key_bytes (strCodes "00000" ++ iv ++ ct) = sig at hun
  have hsiglen : sig.length = 20 := by
    rw [← hsigdef]
    exact (hH _ _).1
  have hA : (strCodes "00000").length = 5 := by decide
  have hassoc : (strCodes "00000" ++ iv ++ ct) ++ sig =
      strCodes "00000" ++ (iv ++ (ct ++ sig)) := by
    simp [List.append_assoc]
  have hdblen : (iv ++ (ct ++ sig)).length = 16 + (ct.length + 20) := by
    rw [List.length_append, List.length_append, hiv, hsiglen]
  simp only [cryptography_symmetric_decrypt, KEYCZAR_HEADER_SIZE, KEYCZAR_AES_BLOCK_SIZE,
    KEYCZAR_HLEN]
  rw [hun]
  simp only [Except.bind]
  rw [hassoc]
  rw [show (strCodes "00000" ++ (iv ++ (ct ++ sig))).drop 5 = iv ++ (ct ++ sig) from by
    rw [← hA]
    exact drop_append_length _ _]
  rw [if_neg (by rw [hdblen]; omega)]
  rw [show (iv ++ (ct ++ sig)).take 16 = iv from by
    rw [← hiv]
    exact take_append_length _ _]
  rw [show (iv ++ (ct ++ sig)).drop 16 = ct ++ sig from by
    rw [← hiv]
    exact drop_append_length _ _]
  rw [show (iv ++ (ct ++ sig)).length - (16 + 20) = ct.length from by rw [hdblen]; omega]
  rw [show (ct ++ sig).take ct.length = ct from take_append_length _ _]
  rw [show (iv ++ (ct ++ sig)).drop ((iv ++ (ct ++ sig)).length - 20) = sig from by
    rw [hdblen, ← List.append_assoc]
    rw [show 16 + (ct.length + 20) - 20 = (iv ++ ct).length from by
      rw [List.length_append, hiv]
      omega]
    exact drop_append_length _ _]
  rw [show (strCodes "00000" ++ (iv ++ (ct ++ sig))).take
      ((strCodes "00000" ++ (iv ++ (ct ++ sig))).length - 20) =
      strCodes "00000" ++ iv ++ ct from by
    rw [← hassoc]
    rw [show ((strCodes "00000" ++ iv ++ ct) ++ sig).length - 20 =
        (strCodes "00000" ++ iv ++ ct).length from by
      rw [List.length_append, hsiglen]
      omega]
    exact take_append_length _ _]
  rw [hsigdef]
  rw [if_neg (by simp)]
  rw [hdec0]
  simp only [Except.bind]
  exact pkcs5_unpad_pad P

/-- Claim C2: on a well-formed hex input with at least the 41 decoded
bytes the length gate requires, if the trailing 20 decoded bytes differ
from the HMAC-SHA1 of the decoded bytes before them, decryption fails
with the authentication error.  The AES block-decryption function `D` is
universally quantified in the conclusion and unconstrained, so the
result cannot depend on any AES decryption: decryption never proceeds
past the signature mismatch and no plaintext is returned. -/
theorem spec_C2_auth_failure (H : List Nat → List Nat → List Nat) (key : AESKey)
    (s raw : List Nat) (hhex : unhexlify s = .ok raw) (hlen : 41 ≤ raw.length)
    (hmis : H key.hmac_key_bytes (raw.take (raw.length - 20)) ≠ raw.drop (raw.length - 20)) :
    ∀ D : List Nat → List Nat → List Nat,
      cryptography_symmetric_decrypt D H key s = .error .authenticationError := by
  intro D
  simp only [cryptography_symmetric_decrypt, KEYCZAR_HEADER_SIZE, KEYCZAR_AES_BLOCK_SIZE,
    KEYCZAR_HLEN]
  rw [hhex]
  simp only [Except.bind]
  rw [if_neg (by rw [List.length_drop]; omega)]
  rw [show (raw.drop 5).length - 20 = raw.length - 25 from by rw [List.length_drop]; omega]
  rw [List.drop_drop]
  rw [show 5 + (raw.length - 25) = raw.length - 20 from by omega]
  rw [if_pos hmis]

/-- Witness for C2: a 41-byte all-zero decoded envelope whose constant
digest function yields ones, mismatching the zero signature bytes. -/
theorem spec_C2_auth_failure_witness :
    cryptography_symmetric_decrypt (fun _ b => b) (fun _ _ => List.replicate 20 1)
      ⟨[], [], 0, strCodes "CBC", 0, [], []⟩ (strUpper (hexlify (List.replicate 41 0))) =
      .error .authenticationError :=
  spec_C2_auth_failure (fun _ _ => List.replicate 20 1) ⟨[], [], 0, strCodes "CBC", 0, [], []⟩
    (strUpper (hexlify (List.replicate 41 0))) (List.replicate 41 0)
    (unhexlify_upper_hexlify (List.replicate 41 0) (fun x hx => by
      simp only [List.mem_replicate] at hx
      omega))
    (by simp)
    (by decide)
    (fun _ b => b)

/-- Claim C3 counterexample: the header of the message that encrypt
signs and emits is the Python string constant made of five ASCII zero
characters (byte value 48 = 0x30), not five bytes of value 0x00 as the
claim states.  Evaluated on the identity block transform, a constant
digest, the all-zero IV and the empty plaintext. -/
theorem spec_C3_counterexample :
    (unhexlify (cryptography_symmetric_encrypt (fun _ b => b) (fun _ _ => List.replicate 20 0)
        ⟨[], [], 0, strCodes "CBC", 0, [], []⟩ (List.replicate 16 0) [])).map (List.take 5) ≠
      Except.ok (List.replicate 5 0) ∧
    (unhexlify (cryptography_symmetric_encrypt (fun _ b => b) (fun _ _ => List.replicate 20 0)
        ⟨[], [], 0, strCodes "CBC", 0, [], []⟩ (List.replicate 16 0) [])).map (List.take 5) =
      Except.ok [48, 48, 48, 48, 48] := by
  constructor
  · decide
  · decide

/-- Claim C3 amended: the message that encrypt signs and emits begins
with a 5-byte header of ASCII zero characters (value 0x30 = 48),
followed by the 16-byte IV and the ciphertext. -/
theorem spec_C3_header_amended (E H : List Nat → List Nat → List Nat) (key : AESKey)
    (iv P : List Nat)
    (hE : GoodBlockEnc (E key.aes_key_bytes)) (hH : GoodHmac H)
    (hiv : iv.length = 16) (hivv : ∀ x ∈ iv, x < 256) (hP : ∀ x ∈ P, x < 256) :
    unhexlify (cryptography_symmetric_encrypt E H key iv P) =
      .ok ((List.replicate 5 48 ++ iv ++
          cbcEncryptBlocks (E key.aes_key_bytes) iv (pkcs5_pad P)) ++
        H key.hmac_key_bytes (List.replicate 5 48 ++ iv ++
          cbcEncryptBlocks (E key.aes_key_bytes) iv (pkcs5_pad P))) := by
  have h := encrypt_unhex E H key iv P hE hH hiv hivv hP
  rw [show strCodes "00000" = List.replicate 5 48 from by decide] at h
  exact h

/-- Witness for the amended C3 at a concrete instance: reversal block
transform, constant digest of threes, all-one IV, plaintext [5]. -/
theorem spec_C3_header_amended_witness :
    unhexlify (cryptography_symmetric_encrypt (fun _ b => b.reverse)
        (fun _ _ => List.replicate 20 3)
        ⟨[], [], 0, strCodes "CBC", 0, [], []⟩ (List.replicate 16 1) [5]) =
      .ok (List.replicate 5 48 ++ List.replicate 16 1 ++
        (List.replicate 15 14 ++ [4]) ++ List.replicate 20 3) := by
  have h := spec_C3_header_amended (fun _ b => b.reverse) (fun _ _ => List.replicate 20 3)
    ⟨[], [], 0, strCodes "CBC", 0, [], []⟩ (List.replicate 16 1) [5]
    (fun b hb hv => ⟨by simp [hb], fun x hx => hv x (by simpa using hx)⟩)
    (fun k m => ⟨by simp, fun x hx => by
      simp only [List.mem_replicate] at hx
      omega⟩)
    (by simp)
    (fun x hx => by
      simp only [List.mem_replicate] at hx
      omega)
    (fun x hx => by
      simp only [List.mem_singleton] at hx
      omega)
  rw [h]
  decide

/-- Witness for C1 at a concrete instance: the reversal block transform
(a 16-byte involution standing in for the AES contract), a constant
20-byte digest, the all-zero IV, and the plaintext [104, 105]. -/
theorem spec_C1_round_trip_witness :
    cryptography_symmetric_decrypt (fun _ b => b.reverse) (fun _ _ => List.replicate 20 0)
      ⟨[], [], 0, strCodes "CBC", 0, [], []⟩
      (cryptography_symmetric_encrypt (fun _ b => b.reverse) (fun _ _ => List.replicate 20 0)
        ⟨[], [], 0, strCodes "CBC", 0, [], []⟩ (List.replicate 16 0) [104, 105]) =
      .ok [104, 105] :=
  spec_C1_round_trip (fun _ b => b.reverse) (fun _ b => b.reverse)
    (fun _ _ => List.replicate 20 0) ⟨[], [], 0, strCodes "CBC", 0, [], []⟩
    (List.replicate 16 0) [104, 105]
    (fun b hb hv => ⟨by simp [hb], fun x hx => hv x (by simpa using hx)⟩)
    (fun b _ _ => by simp)
    (fun k m => ⟨by simp, fun x hx => by
      simp only [List.mem_replicate] at hx
      omega⟩)
    (by simp)
    (fun x hx => by
      simp only [List.mem_replicate] at hx
      omega)
    (fun x hx => by
      simp only [List.mem_cons, List.not_mem_nil, or_false] at hx
      rcases hx with h | h <;> omega)

/-- Claim C5 counterexample: by the claim, generate(12) must fail with a
ConfigurationError, 12 being neither a multiple of 8 nor a supported
size; the source performs no validation at all and returns a key built
from 12 / 8 = 1 random byte (Python 2 floor division) per key. -/
theorem spec_C5_counterexample :
    AESKey.generate 12 (fun _ => 9) (fun _ => 9) ≠ .error .configurationError ∧
    AESKey.generate 12 (fun _ => 9) (fun _ => 9) =
      .ok ⟨[67, 81], [67, 81], 12, strCodes "CBC", 12, [9], [9]⟩ := by
  constructor
  · decide
  · decide

/-- Claim C5 amended: generate validates nothing: for every key size
(supported or not, multiple of 8 or not) it succeeds and returns a key
whose AES key material is the first key_size / 8 (floor) bytes of the
AES randomness stream, whose HMAC key material is likewise drawn from
the HMAC stream, with mode CBC and both size fields set to key_size. -/
theorem spec_C5_generate_amended (key_size : Nat) (aesRandom hmacRandom : Nat → Nat)
    (ha : ∀ i, aesRandom i < 256) (hh : ∀ i, hmacRandom i < 256) :
    AESKey.generate key_size aesRandom hmacRandom =
      .ok ⟨Base64WSEncode ((List.range (key_size / 8)).map aesRandom),
        Base64WSEncode ((List.range (key_size / 8)).map hmacRandom),
        key_size, strCodes "CBC", key_size,
        (List.range (key_size / 8)).map hmacRandom,
        (List.range (key_size / 8)).map aesRandom⟩ := by
  have hva : ∀ x ∈ (List.range (key_size / 8)).map aesRandom, x < 256 := by
    intro x hx
    obtain ⟨i, _, rfl⟩ := List.mem_map.mp hx
    exact ha i
  have hvh : ∀ x ∈ (List.range (key_size / 8)).map hmacRandom, x < 256 := by
    intro x hx
    obtain ⟨i, _, rfl⟩ := List.mem_map.mp hx
    exact hh i
  simp only [AESKey.generate, AESKey.init]
  rw [Base64WSDecode_encode _ hvh, Base64WSDecode_encode _ hva]
  simp only [Except.bind]
  rw [show strUpper (strCodes "CBC") = strCodes "CBC" from by decide]

/-- Witness for the amended C5 at key size 256 with constant streams. -/
theorem spec_C5_generate_amended_witness :
    AESKey.generate 256 (fun _ => 7) (fun _ => 8) =
      .ok ⟨Base64WSEncode ((List.range 32).map fun _ => 7),
        Base64WSEncode ((List.range 32).map fun _ => 8),
        256, strCodes "CBC", 256,
        (List.range 32).map (fun _ => 8), (List.range 32).map fun _ => 7⟩ :=
  spec_C5_generate_amended 256 (fun _ => 7) (fun _ => 8)
    (fun i => show (7 : Nat) < 256 by decide) (fun i => show (8 : Nat) < 256 by decide)

/-- Claim C6 counterexample: by the claim, loading a key record whose
mode is ECB must fail with a ConfigurationError at construction time;
the constructor only uppercases and stores the mode, so the load
succeeds. -/
theorem spec_C6_counterexample :
    read_crypto_key ⟨[], [], 256, strCodes "ecb", 256⟩ ≠ .error .configurationError ∧
    read_crypto_key ⟨[], [], 256, strCodes "ecb", 256⟩ =
      .ok ⟨[], [], 256, strCodes "ECB", 256, [], []⟩ := by
  constructor
  · decide
  · decide

/-- Claim C6 amended: neither read_crypto_key nor the AESKey constructor
validates the mode: loading a record with any mode value succeeds
whenever the two base64 key strings decode, and the mode is merely
uppercased (twice: once by the loader, once by the constructor) and
stored. -/
theorem spec_C6_mode_amended (aesS hmacS : List Nat) (hks size : Nat) (mode : List Nat)
    (A Hb : List Nat) (hA : Base64WSDecode aesS = .ok A)
    (hHb : Base64WSDecode hmacS = .ok Hb) :
    read_crypto_key ⟨aesS, hmacS, hks, mode, size⟩ =
      .ok ⟨aesS, hmacS, hks, strUpper (strUpper mode), size, Hb, A⟩ := by
  unfold read_crypto_key AESKey.init
  rw [hHb, hA]
  simp only [Except.bind]

/-- Witness for the amended C6: an unsupported mode value loads fine. -/
theorem spec_C6_mode_amended_witness :
    read_crypto_key ⟨[], [], 128, strCodes "Gcm", 128⟩ =
      .ok ⟨[], [], 128, strUpper (strUpper (strCodes "Gcm")), 128, [], []⟩ :=
  spec_C6_mode_amended [] [] 128 128 (strCodes "Gcm") [] [] rfl rfl

/-- Claim C7: pkcs5_pad appends exactly n = 16 - (len mod 16) bytes of
value n, with 1 ≤ n ≤ 16, appending a full 16-byte block when the
length is already a multiple of 16; the output length is a multiple of
16, and unpad inverts pad on every byte string. -/
theorem spec_C7_padding (data : List Nat) :
    pkcs5_pad data =
        data ++ List.replicate (16 - data.length % 16) (16 - data.length % 16) ∧
      1 ≤ 16 - data.length % 16 ∧ 16 - data.length % 16 ≤ 16 ∧
      (data.length % 16 = 0 → pkcs5_pad data = data ++ List.replicate 16 16) ∧
      (pkcs5_pad data).length % 16 = 0 ∧
      pkcs5_unpad (pkcs5_pad data) = .ok data := by
  refine ⟨rfl, by omega, by omega, ?_, pkcs5_pad_length_mod data, pkcs5_unpad_pad data⟩
  intro h
  rw [pkcs5_pad_eq, h]

/-- Witness for C7 at a block-aligned input: a full pad block is added
and removed again. -/
theorem spec_C7_padding_witness :
    pkcs5_pad (List.replicate 16 3) = List.replicate 16 3 ++ List.replicate 16 16 ∧
    pkcs5_unpad (pkcs5_pad (List.replicate 16 3)) = .ok (List.replicate 16 3) := by
  obtain ⟨h1, h2, h3, h4, h5, h6⟩ := spec_C7_padding (List.replicate 16 3)
  exact ⟨h4 (by decide), h6⟩

/-- Claim C8 counterexample: on the one-byte string [5] the declared pad
length 5 exceeds the buffer length 1; by the claim unpad must fail with
a FormatError, but Python slicing just yields the empty string and no
exception is raised. -/
theorem spec_C8_counterexample :
    pkcs5_unpad [5] = .ok [] ∧ pkcs5_unpad [5] ≠ .error .formatError := by
  constructor
  · decide
  · decide

/-- Claim C8 amended: unpad reads the last byte n; on the empty string
it fails with an IndexError (not the FormatError of the claim); on a
nonempty string it never fails: when 1 ≤ n ≤ len it removes the final n
bytes, and when n = 0 or n exceeds the length it silently returns the
empty string. -/
theorem spec_C8_unpad_amended (data : List Nat) :
    (data = [] → pkcs5_unpad data = .error .indexError) ∧
    ∀ p, data.getLast? = some p →
      (1 ≤ p → p ≤ data.length → pkcs5_unpad data = .ok (data.take (data.length - p))) ∧
      (p = 0 → pkcs5_unpad data = .ok []) ∧
      (data.length < p → pkcs5_unpad data = .ok []) := by
  constructor
  · intro h
    subst h
    rfl
  · intro p hp
    have hne : data ≠ [] := by
      intro h
      subst h
      simp at hp
    have hpos : 1 ≤ data.length := List.length_pos.mpr hne
    refine ⟨fun h1 _ => ?_, fun h0 => ?_, fun hgt => ?_⟩
    · simp only [pkcs5_unpad, hp]
      rw [if_neg (by omega)]
    · subst h0
      simp [pkcs5_unpad, hp]
    · simp only [pkcs5_unpad, hp]
      rw [if_neg (by omega), show data.length - p = 0 from by omega, List.take_zero]

/-- Witness for the amended C8: a well-formed two-byte pad is removed,
and a trailing zero byte empties the string. -/
theorem spec_C8_unpad_amended_witness :
    pkcs5_unpad [1, 2, 3, 2] = .ok [1, 2] ∧ pkcs5_unpad [9, 0] = .ok [] := by
  constructor
  · have h := ((spec_C8_unpad_amended [1, 2, 3, 2]).2 2 (by decide)).1 (by decide) (by decide)
    rw [h]
    decide
  · exact ((spec_C8_unpad_amended [9, 0]).2 0 (by decide)).2.1 rfl

/-- Claim C9 counterexample: by the claim, any character outside the
URL-safe alphabet must cause a FormatError; in fact the underlying
Python base64 primitive silently discards invalid characters, so the
string "AB!!CD" decodes successfully (the two "!" are dropped; the
remaining quad ABCD yields the bytes 0, 16, 131).  Note the "!" still
counted toward the length used for the remainder dispatch. -/
theorem spec_C9_counterexample :
    Base64WSDecode (strCodes "AB!!CD") = .ok [0, 16, 131] ∧
    Base64WSDecode (strCodes "AB!!CD") ≠ .error .formatError := by
  constructor
  · decide
  · decide

/-- Claim C9 amended: decode strips whitespace and newlines, then
dispatches on the stripped length mod 4: remainder 1 is an immediate
FormatError (remainder 2 appends two pad characters and remainder 3 one
pad character, as exercised by the round trip below); a character
outside the URL-safe alphabet is NOT rejected: the base64 primitive
discards it (though it still counts toward the remainder dispatch), so
inputs with invalid characters can decode successfully.  Decode inverts
encode on every byte string. -/
theorem spec_C9_base64_amended :
    (∀ s : List Nat,
        (s.filter fun c => !(c == 10) && !(c == 13) && !(c == 32)).length % 4 = 1 →
        Base64WSDecode s = .error .formatError) ∧
    (∀ B : List Nat, (∀ x ∈ B, x < 256) → Base64WSDecode (Base64WSEncode B) = .ok B) := by
  constructor
  · intro s hs
    simp only [Base64WSDecode]
    rw [if_pos hs]
  · exact Base64WSDecode_encode

/-- Witness for the amended C9: remainder-1 rejection on a one-character
string, and the round trip on a concrete 4-byte string. -/
theorem spec_C9_base64_amended_witness :
    Base64WSDecode (strCodes "A") = .error .formatError ∧
    Base64WSDecode (Base64WSEncode [0, 255, 7, 9]) = .ok [0, 255, 7, 9] := by
  constructor
  · exact spec_C9_base64_amended.1 (strCodes "A") (by decide)
  · exact spec_C9_base64_amended.2 [0, 255, 7, 9] (by decide)

/-- Claim C10: decryption fails with the format error (the too-short
`Exception` of the source) whenever the hex-decoded input has fewer
than 41 = 5 + 16 + 20 bytes; and for every plaintext the encrypt output
hex-decodes to header ++ iv ++ ciphertext ++ signature with the
ciphertext a nonzero multiple of 16 bytes (so at least 16, in
particular for non-empty plaintexts), a 20-byte signature, total
decoded length 41 + len(ciphertext) (hex length twice that), every
character of the stored form being an uppercase hex digit. -/
theorem spec_C10_envelope_invariants :
    (∀ (D H : List Nat → List Nat → List Nat) (key : AESKey) (s raw : List Nat),
        unhexlify s = .ok raw → raw.length < 41 →
        cryptography_symmetric_decrypt D H key s = .error .formatError) ∧
    (∀ (E H : List Nat → List Nat → List Nat) (key : AESKey) (iv P : List Nat),
        GoodBlockEnc (E key.aes_key_bytes) → GoodHmac H →
        iv.length = 16 → (∀ x ∈ iv, x < 256) → (∀ x ∈ P, x < 256) →
        ∃ ct sig,
          unhexlify (cryptography_symmetric_encrypt E H key iv P) =
            .ok ((strCodes "00000" ++ iv ++ ct) ++ sig) ∧
          ct.length % 16 = 0 ∧ 16 ≤ ct.length ∧ sig.length = 20 ∧
          (cryptography_symmetric_encrypt E H key iv P).length = 2 * (41 + ct.length) ∧
          ∀ c ∈ cryptography_symmetric_encrypt E H key iv P,
            (48 ≤ c ∧ c ≤ 57) ∨ (65 ≤ c ∧ c ≤ 70)) := by
  constructor
  · intro D H key s raw hhex hshort
    simp only [cryptography_symmetric_decrypt, KEYCZAR_HEADER_SIZE, KEYCZAR_AES_BLOCK_SIZE,
      KEYCZAR_HLEN]
    rw [hhex]
    simp only [Except.bind]
    rw [if_pos (by rw [List.length_drop]; omega)]
  · intro E H key iv P hE hH hiv hivv hP
    refine ⟨cbcEncryptBlocks (E key.aes_key_bytes) iv (pkcs5_pad P),
      H key.hmac_key_bytes (strCodes "00000" ++ iv ++
        cbcEncryptBlocks (E key.aes_key_bytes) iv (pkcs5_pad P)), ?_, ?_, ?_, ?_, ?_, ?_⟩
    · exact encrypt_unhex E H key iv P hE hH hiv hivv hP
    · rw [(cbcEncryptBlocks_spec (E key.aes_key_bytes) hE iv (pkcs5_pad P)
        (pkcs5_pad_length_mod P) hiv hivv (pkcs5_pad_bytes P hP)).1]
      exact pkcs5_pad_length_mod P
    · rw [(cbcEncryptBlocks_spec (E key.aes_key_bytes) hE iv (pkcs5_pad P)
        (pkcs5_pad_length_mod P) hiv hivv (pkcs5_pad_bytes P hP)).1]
      exact pkcs5_pad_length_pos P
    · exact (hH _ _).1
    · have hctlen := (cbcEncryptBlocks_spec (E key.aes_key_bytes) hE iv (pkcs5_pad P)
        (pkcs5_pad_length_mod P) hiv hivv (pkcs5_pad_bytes P hP)).1
      have hsiglen := (hH key.hmac_key_bytes (strCodes "00000" ++ iv ++
        cbcEncryptBlocks (E key.aes_key_bytes) iv (pkcs5_pad P))).1
      simp only [cryptography_symmetric_encrypt, strUpper, List.length_map]
      rw [hexlify_length, List.length_append, List.length_append, List.length_append,
        hsiglen, hctlen, hiv, strCodes_00000]
      simp only [List.length_cons, List.length_nil]
      omega
    · have hall := encrypt_parts_valid E H key iv P hE hH hiv hivv hP
      intro c hc
      simp only [cryptography_symmetric_encrypt] at hc
      exact mem_upper_hexlify _ hall c hc

/-- Witness for C10: a 2-byte hex input is rejected as too short, and
the envelope shape holds at a concrete instance. -/
theorem spec_C10_envelope_invariants_witness :
    cryptography_symmetric_decrypt (fun _ b => b) (fun _ _ => [])
      ⟨[], [], 0, strCodes "CBC", 0, [], []⟩ (strCodes "00") = .error .formatError ∧
    ∃ ct sig,
      unhexlify (cryptography_symmetric_encrypt (fun _ b => b.reverse)
          (fun _ _ => List.replicate 20 0)
          ⟨[], [], 0, strCodes "CBC", 0, [], []⟩ (List.replicate 16 0) []) =
        .ok ((strCodes "00000" ++ List.replicate 16 0 ++ ct) ++ sig) ∧
      ct.length % 16 = 0 ∧ 16 ≤ ct.length ∧ sig.length = 20 ∧
      (cryptography_symmetric_encrypt (fun _ b => b.reverse) (fun _ _ => List.replicate 20 0)
        ⟨[], [], 0, strCodes "CBC", 0, [], []⟩ (List.replicate 16 0) []).length =
        2 * (41 + ct.length) ∧
      ∀ c ∈ cryptography_symmetric_encrypt (fun _ b => b.reverse)
          (fun _ _ => List.replicate 20 0)
          ⟨[], [], 0, strCodes "CBC", 0, [], []⟩ (List.replicate 16 0) [],
        (48 ≤ c ∧ c ≤ 57) ∨ (65 ≤ c ∧ c ≤ 70) := by
  constructor
  · exact spec_C10_envelope_invariants.1 (fun _ b => b) (fun _ _ => [])
      ⟨[], [], 0, strCodes "CBC", 0, [], []⟩ (strCodes "00") [0] (by decide) (by decide)
  · exact spec_C10_envelope_invariants.2 (fun _ b => b.reverse)
      (fun _ _ => List.replicate 20 0) ⟨[], [], 0, strCodes "CBC", 0, [], []⟩
      (List.replicate 16 0) []
      (fun b hb hv => ⟨by simp [hb], fun x hx => hv x (by simpa using hx)⟩)
      (fun k m => ⟨by simp, fun x hx => by
        simp only [List.mem_replicate] at hx
        omega⟩)
      (by simp)
      (fun x hx => by
        simp only [List.mem_replicate] at hx
        omega)
      (fun x hx => by simp at hx)
